import Mathlib

/-
Shallow embedding of `libraries/AP_RangeFinder/AP_RangeFinder_uLanding.cpp`
(the uLanding serial rangefinder driver): the firmware-version detector
`detect_version` and the frame decoder `get_reading`, together with the
`update` entry point.

Modelling conventions:
* Bytes are `Nat`s; the wire masks `& 0x7F`, `& 0xFF` and the equality tests
  of the C code are kept explicitly (`&&& 0x7F`, `% 256`).  Where a theorem
  needs a value to actually be a byte, a `< 256` hypothesis is added.
* The uart is modelled as the list of bytes available at call entry.  A call
  consumes bytes from the front; `detect_version` returns the bytes it left
  unread (the C code resolves mid-stream and `get_reading` then drains the
  remainder with its own `available()` loop).
* The member fields `_version_known`, `_version`, `_header`, `linebuf`,
  `linebuf_len` of the driver instance (declared in the accompanying header
  file) become the record `ULState`.  The 6-entry byte array `linebuf` is
  modelled as a total function `Nat → Nat` written through `bufWrite`; the
  in-bounds property of every write is proved separately (claim C10) rather
  than assumed.
* The C accumulator `float sum` only ever receives integer frame values and
  the result is narrowed to `uint16_t` by an implicit float-to-integer
  conversion (truncation).  It is modelled as exact `Nat` arithmetic with
  truncating division; for the magnitudes appearing in the claims the float
  computation is exact, so the two agree there.  Likewise the final
  `reading_cm *= 2.5f` on a `uint16_t` becomes `* 5 / 2` with truncating
  division.
-/

namespace ULanding

/-- Header byte of the checksummed uLanding format (`ULANDING_HDR`, 0xFE). -/
def ULANDING_HDR : Nat := 0xFE

/-- Header byte of the beta V0 uLanding format (`ULANDING_HDR_V0`, 0x48). -/
def ULANDING_HDR_V0 : Nat := 0x48

/-- Modelled from the spec: the frame buffer `linebuf` is declared in the
driver's header file, which is not under `src/`; per spec section 3 its
capacity is the ChecksummedV1 frame length, 6 bytes, so the C expression
`sizeof(linebuf)/sizeof(linebuf[0])` evaluates to 6. -/
def linebufSize : Nat := 6

/-- The driver instance fields that the two components read and write:
`_version_known`, `_version`, `_header` (the dialect latch) and the frame
buffer `linebuf` with its fill index `linebuf_len`. -/
structure ULState where
  version_known : Bool
  version : Nat
  header : Nat
  linebuf : Nat → Nat
  linebuf_len : Nat

/-- Writing one cell of the frame buffer: `linebuf[i] = c`. -/
def bufWrite (buf : Nat → Nat) (i c : Nat) : Nat → Nat :=
  fun j => if j = i then c else buf j

/-- A fresh driver instance: dialect unresolved, buffer empty. -/
def initState : ULState :=
  { version_known := false, version := 0, header := 0, linebuf := fun _ => 0, linebuf_len := 0 }

/-- The scanning loop of `detect_version` (source lines 71-124).  The local
variables `hdr_found`, `byte1` and `count` are threaded as arguments; the
result is the returned boolean, the updated instance state and the bytes the
loop left unread. -/
def detect_loop : Bool → Nat → Nat → ULState → List Nat → Bool × ULState × List Nat
  | _, _, _, st, [] => (false, st, [])
  | hf, b1, cnt, st, c :: rest =>
    if (c = ULANDING_HDR_V0 ∨ c = ULANDING_HDR) ∧ hf = false then
      detect_loop true c (cnt + 1) st rest
    else if hf = true then
      if b1 = ULANDING_HDR_V0 then
        if cnt + 1 < 4 then
          detect_loop hf b1 (cnt + 1) st rest
        else if c = b1 then
          (true, { st with version := 0, header := ULANDING_HDR_V0, version_known := true }, rest)
        else
          detect_loop false 0 0 st rest
      else
        if c &&& 0x80 ≠ 0 ∨ c = ULANDING_HDR_V0 then
          detect_loop false 0 0 st rest
        else
          (true, { st with version := c, header := ULANDING_HDR, version_known := true }, rest)
    else
      detect_loop hf b1 cnt st rest

/-- `AP_RangeFinder_uLanding::detect_version` (source lines 55-130).  When the
version is already known it returns true immediately without touching the
stream; otherwise it scans the available bytes. -/
def detect_version (st : ULState) (avail : List Nat) : Bool × ULState × List Nat :=
  if st.version_known = true then (true, st, avail)
  else detect_loop false 0 0 st avail

/-- The body of `if (hdr_found) { ... }` in `get_reading` (source lines
162-188): append the byte (`linebuf[linebuf_len++] = c`), and once
`linebuf_len` passes the completion test, decode the frame.  Returns the
decoded raw value (if a frame completed and was accepted), the new
`hdr_found` flag and the updated state.  Note that the completion test
`linebuf_len < 6 || (_version == 0 && linebuf_len < 3)` is copied verbatim:
its second disjunct implies the first, so every frame is in fact held until 6
bytes, also for version 0. -/
def proc_byte (st : ULState) (c : Nat) : Option Nat × Bool × ULState :=
  let st1 : ULState :=
    { st with linebuf := bufWrite st.linebuf st.linebuf_len c,
              linebuf_len := st.linebuf_len + 1 }
  if st1.linebuf_len < linebufSize ∨ (st1.version = 0 ∧ st1.linebuf_len < 3) then
    (none, true, st1)
  else if st1.version = 0 then
    (some ((st1.linebuf 2 &&& 0x7F) * 128 + (st1.linebuf 1 &&& 0x7F)), false,
      { st1 with linebuf_len := 0 })
  else if (st1.linebuf 1 + st1.linebuf 2 + st1.linebuf 3 + st1.linebuf 4) % 256
            = st1.linebuf 5 then
    (some (st1.linebuf 3 * 256 + st1.linebuf 2), false, { st1 with linebuf_len := 0 })
  else
    (none, false, { st1 with linebuf_len := 0 })

/-- The byte-draining loop of `get_reading` (source lines 153-189), threading
the running `sum`, the valid-frame `count` and the local `hdr_found` flag.
A byte equal to `_header` while not inside a frame resets `linebuf_len` and
raises `hdr_found`; every byte seen with `hdr_found` raised goes through
`proc_byte`. -/
def read_loop : Nat → Nat → Bool → ULState → List Nat → Nat × Nat × ULState
  | sum, count, _, st, [] => (sum, count, st)
  | sum, count, hf, st, c :: rest =>
    if c = st.header ∧ hf = false then
      match proc_byte { st with linebuf_len := 0 } c with
      | (some r, hf2, st2) => read_loop (sum + r) (count + 1) hf2 st2 rest
      | (none, hf2, st2) => read_loop sum count hf2 st2 rest
    else if hf = true then
      match proc_byte st c with
      | (some r, hf2, st2) => read_loop (sum + r) (count + 1) hf2 st2 rest
      | (none, hf2, st2) => read_loop sum count hf2 st2 rest
    else
      read_loop sum count hf st rest

/-- `AP_RangeFinder_uLanding::get_reading` (source lines 134-202): ensure the
version is resolved, drain the stream, and if at least one frame was accepted
return `sum / count`, additionally scaled by 2.5 for version 0.  The result
is `none` exactly when the C function returns false (in which case the
out-parameter `reading_cm` is not written). -/
def get_reading (st : ULState) (avail : List Nat) : Option Nat × ULState :=
  match detect_version st avail with
  | (false, st1, _) => (none, st1)
  | (true, st1, rest) =>
    match read_loop 0 0 false st1 rest with
    | (sum, count, st2) =>
      if count = 0 then (none, st2)
      else if st2.version = 0 then (some (sum / count * 5 / 2), st2)
      else (some (sum / count), st2)

/-- A driver instance as seen by `update`: the decoder state plus the
process-wide distance, timestamp and health fields. -/
structure DeviceState where
  rf : ULState
  distance_cm : Nat
  last_reading_ms : Nat
  no_data : Bool

/-- Modelled from the spec: `AP_RangeFinder_uLanding::update` (source lines
207-216) calls `get_reading(state.distance_cm)`; on success it stores the
distance, refreshes the last-reading timestamp (`AP_HAL::millis()` is
modelled as the `now` argument) and runs `update_status`, which is declared
outside `src/` — per spec section 8 a valid reading recovers the health
state, collapsed here to clearing the `no_data` flag.  Otherwise, after the
fixed 200 ms window it sets the no-data status. -/
def update (d : DeviceState) (avail : List Nat) (now : Nat) : DeviceState :=
  match get_reading d.rf avail with
  | (some r, st) =>
    { rf := st, distance_cm := r, last_reading_ms := now, no_data := false }
  | (none, st) =>
    if 200 < now - d.last_reading_ms then { d with rf := st, no_data := true }
    else { d with rf := st }

/-- A sequence of polling calls to `get_reading`, returning the reading of
each call and the final state. -/
def runCalls : ULState → List (List Nat) → List (Option Nat) × ULState
  | st, [] => ([], st)
  | st, a :: more =>
    match get_reading st a with
    | (r, st1) =>
      match runCalls st1 more with
      | (rs, st2) => (r :: rs, st2)

/-- Derived view of `read_loop`: the list of raw values of the frames that
complete and are accepted during one call's drain, in order.  Same control
flow as `read_loop`, projecting away `sum` and `count`. -/
def scanRaws : Bool → ULState → List Nat → List Nat
  | _, _, [] => []
  | hf, st, c :: rest =>
    if c = st.header ∧ hf = false then
      match proc_byte { st with linebuf_len := 0 } c with
      | (some r, hf2, st2) => r :: scanRaws hf2 st2 rest
      | (none, hf2, st2) => scanRaws hf2 st2 rest
    else if hf = true then
      match proc_byte st c with
      | (some r, hf2, st2) => r :: scanRaws hf2 st2 rest
      | (none, hf2, st2) => scanRaws hf2 st2 rest
    else
      scanRaws hf st rest

/-- Derived view of `read_loop`: the index `linebuf_len` used by each buffer
write `linebuf[linebuf_len++] = c`, in order.  Same control flow and state
evolution as `read_loop`. -/
def read_loop_writes : Bool → ULState → List Nat → List Nat
  | _, _, [] => []
  | hf, st, c :: rest =>
    if c = st.header ∧ hf = false then
      match proc_byte { st with linebuf_len := 0 } c with
      | (_, hf2, st2) => 0 :: read_loop_writes hf2 st2 rest
    else if hf = true then
      match proc_byte st c with
      | (_, hf2, st2) => st.linebuf_len :: read_loop_writes hf2 st2 rest
    else
      read_loop_writes hf st rest

/-- A resolved LegacyV0 instance (`_version = 0`, `_header = 0x48`), as
produced by `detect_version` from the stream `[0x48, x, y, 0x48]` applied to
a fresh instance. -/
def v0State : ULState :=
  { version_known := true, version := 0, header := ULANDING_HDR_V0,
    linebuf := fun _ => 0, linebuf_len := 0 }

/-- A resolved ChecksummedV1 instance with sub-version 1
(`_version = 1`, `_header = 0xFE`). -/
def v1State : ULState :=
  { version_known := true, version := 1, header := ULANDING_HDR,
    linebuf := fun _ => 0, linebuf_len := 0 }

/-- The instance produced by resolving from the byte pair `[0xFE, 0x00]`:
sub-version 0 recorded with header `0xFE`. -/
def chk0State : ULState :=
  { version_known := true, version := 0, header := ULANDING_HDR,
    linebuf := fun _ => 0, linebuf_len := 0 }

/-- `proc_byte` never touches the dialect latch: `_version`, `_header` and
`_version_known` come out unchanged. -/
lemma proc_byte_version (st : ULState) (c : Nat) :
    (proc_byte st c).2.2.version = st.version ∧
    (proc_byte st c).2.2.header = st.header ∧
    (proc_byte st c).2.2.version_known = st.version_known := by
  unfold proc_byte
  dsimp only
  split
  · exact ⟨rfl, rfl, rfl⟩
  split
  · exact ⟨rfl, rfl, rfl⟩
  split
  · exact ⟨rfl, rfl, rfl⟩
  · exact ⟨rfl, rfl, rfl⟩

/-- When `proc_byte` leaves `hdr_found` raised (the frame is still being
collected), the fill index it leaves behind is strictly below the buffer
capacity. -/
lemma proc_byte_hf_len (st : ULState) (c : Nat) :
    (proc_byte st c).2.1 = true → (proc_byte st c).2.2.linebuf_len < 6 := by
  unfold proc_byte
  dsimp only
  split
  · next h =>
      intro _
      rcases h with h | h
      · simpa [linebufSize] using h
      · have := h.2
        simp only [linebufSize] at *
        omega
  split
  · intro h; cases h
  split
  · intro h; cases h
  · intro h; cases h

/-- One-call correspondence between the imperative drain loop and its
derived view: the final `sum` and `count` are the initial ones plus the sum
and number of the accepted raw values, and the dialect latch is untouched. -/
lemma read_loop_spec (bytes : List Nat) : ∀ sum count hf st,
    (read_loop sum count hf st bytes).1 = sum + (scanRaws hf st bytes).sum ∧
    (read_loop sum count hf st bytes).2.1 = count + (scanRaws hf st bytes).length ∧
    (read_loop sum count hf st bytes).2.2.version = st.version ∧
    (read_loop sum count hf st bytes).2.2.header = st.header ∧
    (read_loop sum count hf st bytes).2.2.version_known = st.version_known := by
  induction bytes with
  | nil =>
    intro sum count hf st
    simp [read_loop, scanRaws]
  | cons c rest ih =>
    intro sum count hf st
    by_cases h1 : c = st.header ∧ hf = false
    · rcases hp : proc_byte { st with linebuf_len := 0 } c with ⟨r, hf2, st2⟩
      have hv := proc_byte_version { st with linebuf_len := 0 } c
      rw [hp] at hv
      have hva : st2.version = st.version := hv.1
      have hvb : st2.header = st.header := hv.2.1
      have hvc : st2.version_known = st.version_known := hv.2.2
      rcases r with _ | r
      · simp only [read_loop, scanRaws, if_pos h1, hp]
        obtain ⟨e1, e2, e3, e4, e5⟩ := ih sum count hf2 st2
        exact ⟨e1, e2, e3.trans hva, e4.trans hvb, e5.trans hvc⟩
      · simp only [read_loop, scanRaws, if_pos h1, hp, List.sum_cons, List.length_cons]
        obtain ⟨e1, e2, e3, e4, e5⟩ := ih (sum + r) (count + 1) hf2 st2
        refine ⟨?_, ?_, e3.trans hva, e4.trans hvb, e5.trans hvc⟩
        · rw [e1]; omega
        · rw [e2]; omega
    · by_cases h2 : hf = true
      · rcases hp : proc_byte st c with ⟨r, hf2, st2⟩
        have hv := proc_byte_version st c
        rw [hp] at hv
        have hva : st2.version = st.version := hv.1
        have hvb : st2.header = st.header := hv.2.1
        have hvc : st2.version_known = st.version_known := hv.2.2
        rcases r with _ | r
        · simp only [read_loop, scanRaws, if_neg h1, if_pos h2, hp]
          obtain ⟨e1, e2, e3, e4, e5⟩ := ih sum count hf2 st2
          exact ⟨e1, e2, e3.trans hva, e4.trans hvb, e5.trans hvc⟩
        · simp only [read_loop, scanRaws, if_neg h1, if_pos h2, hp, List.sum_cons,
            List.length_cons]
          obtain ⟨e1, e2, e3, e4, e5⟩ := ih (sum + r) (count + 1) hf2 st2
          refine ⟨?_, ?_, e3.trans hva, e4.trans hvb, e5.trans hvc⟩
          · rw [e1]; omega
          · rw [e2]; omega
      · simp only [read_loop, scanRaws, if_neg h1, if_neg h2]
        exact ih sum count hf st

/-- Two buffers that agree below `len` still agree below `len + 1` after both
write `c` at position `len`. -/
lemma bufWrite_agree {buf1 buf2 : Nat → Nat} (len c : Nat)
    (h : ∀ i, i < len → buf1 i = buf2 i) :
    ∀ i, i < len + 1 → bufWrite buf1 len c i = bufWrite buf2 len c i := by
  intro i hi
  by_cases he : i = len
  · simp [bufWrite, he]
  · simp only [bufWrite, if_neg he]
    exact h i (by omega)

/-- Coupling for `proc_byte`: two instance states with the same `_version`,
the same fill index, and buffers that agree below the fill index, step to the
same decode result and `hdr_found` flag, with fill indices and
below-fill-index buffer contents still in agreement.  This captures that the
decoder only ever reads buffer cells written during the current frame. -/
lemma proc_byte_agree (st1 st2 : ULState) (c : Nat)
    (hv : st1.version = st2.version)
    (hl : st1.linebuf_len = st2.linebuf_len)
    (hb : ∀ i, i < st1.linebuf_len → st1.linebuf i = st2.linebuf i) :
    (proc_byte st1 c).1 = (proc_byte st2 c).1 ∧
    (proc_byte st1 c).2.1 = (proc_byte st2 c).2.1 ∧
    (proc_byte st1 c).2.2.linebuf_len = (proc_byte st2 c).2.2.linebuf_len ∧
    ∀ i, i < (proc_byte st1 c).2.2.linebuf_len →
      (proc_byte st1 c).2.2.linebuf i = (proc_byte st2 c).2.2.linebuf i := by
  unfold proc_byte
  dsimp only
  rw [← hv, ← hl]
  have hw := bufWrite_agree st1.linebuf_len c hb
  by_cases hcond : st1.linebuf_len + 1 < linebufSize ∨
      (st1.version = 0 ∧ st1.linebuf_len + 1 < 3)
  · simp only [if_pos hcond]
    refine ⟨by trivial, by trivial, by trivial, ?_⟩
    exact hw
  · simp only [if_neg hcond]
    have h6 : ¬ (st1.linebuf_len + 1 < linebufSize) := fun h => hcond (Or.inl h)
    simp only [linebufSize] at h6
    have e1 := hw 1 (by omega)
    have e2 := hw 2 (by omega)
    have e3 := hw 3 (by omega)
    have e4 := hw 4 (by omega)
    have e5 := hw 5 (by omega)
    by_cases hv0 : st1.version = 0
    · simp only [if_pos hv0, e1, e2]
      refine ⟨by trivial, by trivial, by trivial, ?_⟩
      intro i hi
      exact absurd hi (by omega)
    · simp only [if_neg hv0, e1, e2, e3, e4, e5]
      by_cases hcs : (bufWrite st2.linebuf st1.linebuf_len c 1 +
          bufWrite st2.linebuf st1.linebuf_len c 2 +
          bufWrite st2.linebuf st1.linebuf_len c 3 +
          bufWrite st2.linebuf st1.linebuf_len c 4) % 256 =
          bufWrite st2.linebuf st1.linebuf_len c 5
      · simp only [if_pos hcs]
        refine ⟨by trivial, by trivial, by trivial, ?_⟩
        intro i hi
        exact absurd hi (by omega)
      · simp only [if_neg hcs]
        refine ⟨by trivial, by trivial, by trivial, ?_⟩
        intro i hi
        exact absurd hi (by omega)

/-- Coupling for `scanRaws`: the accepted raw values of one call depend only
on `_version`, `_header`, the bytes, and - while a frame is in progress - the
part of the buffer already filled.  In particular, starting a call outside a
frame (`hdr_found = false`), they are independent of the leftover buffer and
fill index. -/
lemma scanRaws_agree (bytes : List Nat) : ∀ hf (st1 st2 : ULState),
    st1.version = st2.version → st1.header = st2.header →
    (hf = true → st1.linebuf_len = st2.linebuf_len ∧
      ∀ i, i < st1.linebuf_len → st1.linebuf i = st2.linebuf i) →
    scanRaws hf st1 bytes = scanRaws hf st2 bytes := by
  induction bytes with
  | nil => intro hf st1 st2 _ _ _; rfl
  | cons c rest ih =>
    intro hf st1 st2 hv hh hinv
    by_cases h1 : c = st1.header ∧ hf = false
    · have h1b : c = st2.header ∧ hf = false := ⟨h1.1.trans hh, h1.2⟩
      rcases hp1 : proc_byte { st1 with linebuf_len := 0 } c with ⟨r1, hf1, st1n⟩
      rcases hp2 : proc_byte { st2 with linebuf_len := 0 } c with ⟨r2, hf2, st2n⟩
      have hag := proc_byte_agree { st1 with linebuf_len := 0 }
        { st2 with linebuf_len := 0 } c hv rfl (fun i hi => by simp at hi)
      rw [hp1, hp2] at hag
      have hr : r1 = r2 := hag.1
      have hhf : hf1 = hf2 := hag.2.1
      have hlen : st1n.linebuf_len = st2n.linebuf_len := hag.2.2.1
      have hbuf : ∀ i, i < st1n.linebuf_len → st1n.linebuf i = st2n.linebuf i := hag.2.2.2
      have hv1 := proc_byte_version { st1 with linebuf_len := 0 } c
      have hv2 := proc_byte_version { st2 with linebuf_len := 0 } c
      rw [hp1] at hv1
      rw [hp2] at hv2
      have hvn : st1n.version = st2n.version := by
        have a1 : st1n.version = st1.version := hv1.1
        have a2 : st2n.version = st2.version := hv2.1
        rw [a1, a2, hv]
      have hhn : st1n.header = st2n.header := by
        have a1 : st1n.header = st1.header := hv1.2.1
        have a2 : st2n.header = st2.header := hv2.2.1
        rw [a1, a2, hh]
      have hrec := ih hf1 st1n st2n hvn hhn (fun _ => ⟨hlen, hbuf⟩)
      subst hr hhf
      rcases r1 with _ | r1
      · simp only [scanRaws, if_pos h1, if_pos h1b, hp1, hp2]
        exact hrec
      · simp only [scanRaws, if_pos h1, if_pos h1b, hp1, hp2]
        rw [hrec]
    · have h1b : ¬ (c = st2.header ∧ hf = false) :=
        fun hcon => h1 ⟨hcon.1.trans hh.symm, hcon.2⟩
      by_cases h2 : hf = true
      · rcases hp1 : proc_byte st1 c with ⟨r1, hf1, st1n⟩
        rcases hp2 : proc_byte st2 c with ⟨r2, hf2, st2n⟩
        have hag := proc_byte_agree st1 st2 c hv (hinv h2).1 (hinv h2).2
        rw [hp1, hp2] at hag
        have hr : r1 = r2 := hag.1
        have hhf : hf1 = hf2 := hag.2.1
        have hlen : st1n.linebuf_len = st2n.linebuf_len := hag.2.2.1
        have hbuf : ∀ i, i < st1n.linebuf_len → st1n.linebuf i = st2n.linebuf i := hag.2.2.2
        have hv1 := proc_byte_version st1 c
        have hv2 := proc_byte_version st2 c
        rw [hp1] at hv1
        rw [hp2] at hv2
        have hvn : st1n.version = st2n.version := by
          have a1 : st1n.version = st1.version := hv1.1
          have a2 : st2n.version = st2.version := hv2.1
          rw [a1, a2, hv]
        have hhn : st1n.header = st2n.header := by
          have a1 : st1n.header = st1.header := hv1.2.1
          have a2 : st2n.header = st2.header := hv2.2.1
          rw [a1, a2, hh]
        have hrec := ih hf1 st1n st2n hvn hhn (fun _ => ⟨hlen, hbuf⟩)
        subst hr hhf
        rcases r1 with _ | r1
        · simp only [scanRaws, if_neg h1, if_neg h1b, if_pos h2, hp1, hp2]
          exact hrec
        · simp only [scanRaws, if_neg h1, if_neg h1b, if_pos h2, hp1, hp2]
          rw [hrec]
      · simp only [scanRaws, if_neg h1, if_neg h1b, if_neg h2]
        exact ih hf st1 st2 hv hh (fun hcon => absurd hcon h2)

/-- When the detection loop reports success, the state it returns has the
version latch set. -/
lemma detect_loop_resolves (bytes : List Nat) : ∀ hf b1 cnt st,
    (detect_loop hf b1 cnt st bytes).1 = true →
    (detect_loop hf b1 cnt st bytes).2.1.version_known = true := by
  induction bytes with
  | nil => intro hf b1 cnt st h; cases h
  | cons c rest ih =>
    intro hf b1 cnt st
    simp only [detect_loop]
    by_cases h1 : (c = ULANDING_HDR_V0 ∨ c = ULANDING_HDR) ∧ hf = false
    · simp only [if_pos h1]; exact ih _ _ _ _
    · simp only [if_neg h1]
      by_cases h2 : hf = true
      · simp only [if_pos h2]
        by_cases h3 : b1 = ULANDING_HDR_V0
        · simp only [if_pos h3]
          by_cases h4 : cnt + 1 < 4
          · simp only [if_pos h4]; exact ih _ _ _ _
          · simp only [if_neg h4]
            by_cases h5 : c = b1
            · simp only [if_pos h5]; intro _; trivial
            · simp only [if_neg h5]; exact ih _ _ _ _
        · simp only [if_neg h3]
          by_cases h6 : c &&& 0x80 ≠ 0 ∨ c = ULANDING_HDR_V0
          · simp only [if_pos h6]; exact ih _ _ _ _
          · simp only [if_neg h6]; intro _; trivial
      · simp only [if_neg h2]; exact ih _ _ _ _

/-- The detection loop never reads the instance state: its outcome, the bytes
it leaves unread, and the dialect fields of the state it returns depend only
on the scanned bytes and its local variables. -/
lemma detect_loop_agree (bytes : List Nat) : ∀ hf b1 cnt (st1 st2 : ULState),
    st1.version_known = st2.version_known → st1.version = st2.version →
    st1.header = st2.header →
    (detect_loop hf b1 cnt st1 bytes).1 = (detect_loop hf b1 cnt st2 bytes).1 ∧
    (detect_loop hf b1 cnt st1 bytes).2.2 = (detect_loop hf b1 cnt st2 bytes).2.2 ∧
    (detect_loop hf b1 cnt st1 bytes).2.1.version_known
      = (detect_loop hf b1 cnt st2 bytes).2.1.version_known ∧
    (detect_loop hf b1 cnt st1 bytes).2.1.version
      = (detect_loop hf b1 cnt st2 bytes).2.1.version ∧
    (detect_loop hf b1 cnt st1 bytes).2.1.header
      = (detect_loop hf b1 cnt st2 bytes).2.1.header := by
  induction bytes with
  | nil => intro hf b1 cnt st1 st2 e1 e2 e3; exact ⟨rfl, rfl, e1, e2, e3⟩
  | cons c rest ih =>
    intro hf b1 cnt st1 st2 e1 e2 e3
    simp only [detect_loop]
    by_cases h1 : (c = ULANDING_HDR_V0 ∨ c = ULANDING_HDR) ∧ hf = false
    · simp only [if_pos h1]; exact ih _ _ _ _ _ e1 e2 e3
    · simp only [if_neg h1]
      by_cases h2 : hf = true
      · simp only [if_pos h2]
        by_cases h3 : b1 = ULANDING_HDR_V0
        · simp only [if_pos h3]
          by_cases h4 : cnt + 1 < 4
          · simp only [if_pos h4]; exact ih _ _ _ _ _ e1 e2 e3
          · simp only [if_neg h4]
            by_cases h5 : c = b1
            · simp only [if_pos h5]; exact ⟨trivial, trivial, trivial, trivial, trivial⟩
            · simp only [if_neg h5]; exact ih _ _ _ _ _ e1 e2 e3
        · simp only [if_neg h3]
          by_cases h6 : c &&& 0x80 ≠ 0 ∨ c = ULANDING_HDR_V0
          · simp only [if_pos h6]; exact ih _ _ _ _ _ e1 e2 e3
          · simp only [if_neg h6]; exact ⟨trivial, trivial, trivial, trivial, trivial⟩
      · simp only [if_neg h2]; exact ih _ _ _ _ _ e1 e2 e3

/-- With the version already resolved, `get_reading`'s final state is exactly
the state the drain loop leaves behind. -/
lemma get_reading_state (st : ULState) (avail : List Nat) (hk : st.version_known = true) :
    (get_reading st avail).2 = (read_loop 0 0 false st avail).2.2 := by
  have hd : detect_version st avail = (true, st, avail) := by
    simp [detect_version, hk]
  rcases hr : read_loop 0 0 false st avail with ⟨sum, count, st2⟩
  simp only [get_reading, hd, hr]
  by_cases h0 : count = 0
  · simp [h0]
  · by_cases hv : st2.version = 0 <;> simp [h0, hv]

/-- With the version already resolved, the reading produced by `get_reading`
is determined by the accepted raw values of the call: none if there are none,
otherwise their truncated mean, additionally scaled by 2.5 (with truncation)
when the resolved version is 0. -/
lemma get_reading_spec (st : ULState) (avail : List Nat) (hk : st.version_known = true) :
    (get_reading st avail).1 =
      (if (scanRaws false st avail).length = 0 then none
       else if st.version = 0 then
         some ((scanRaws false st avail).sum / (scanRaws false st avail).length * 5 / 2)
       else some ((scanRaws false st avail).sum / (scanRaws false st avail).length)) := by
  have hd : detect_version st avail = (true, st, avail) := by
    simp [detect_version, hk]
  rcases hr : read_loop 0 0 false st avail with ⟨sum, count, st2⟩
  obtain ⟨e1, e2, e3, _, _⟩ := read_loop_spec avail 0 0 false st
  rw [hr] at e1 e2 e3
  have hsum : sum = (scanRaws false st avail).sum := by simpa using e1
  have hcnt : count = (scanRaws false st avail).length := by simpa using e2
  have hver : st2.version = st.version := e3
  simp only [get_reading, hd, hr]
  by_cases h0 : count = 0
  · have hL : (scanRaws false st avail).length = 0 := by omega
    simp [h0, hL]
  · have hL : ¬ (scanRaws false st avail).length = 0 := by omega
    by_cases hv : st.version = 0
    · have hv2 : st2.version = 0 := by rw [hver, hv]
      simp [h0, hL, hv, hv2, hsum, hcnt]
    · have hv2 : ¬ st2.version = 0 := by rw [hver]; exact hv
      simp [h0, hL, hv, hv2, hsum, hcnt]

/-- With the version already resolved, `get_reading` leaves the dialect latch
untouched. -/
lemma get_reading_fields (st : ULState) (avail : List Nat) (hk : st.version_known = true) :
    (get_reading st avail).2.version_known = true ∧
    (get_reading st avail).2.version = st.version ∧
    (get_reading st avail).2.header = st.header := by
  obtain ⟨_, _, e3, e4, e5⟩ := read_loop_spec avail 0 0 false st
  rw [get_reading_state st avail hk]
  exact ⟨e5.trans hk, e3, e4⟩

/-- Full-call coupling: two instance states that agree on the dialect latch
(`_version_known`, `_version`, `_header`) but may differ arbitrarily in the
frame buffer and its fill index produce the same reading on the same bytes,
and their successor states again agree on the latch. -/
lemma get_reading_agree (st1 st2 : ULState) (avail : List Nat)
    (e1 : st1.version_known = st2.version_known)
    (e2 : st1.version = st2.version)
    (e3 : st1.header = st2.header) :
    (get_reading st1 avail).1 = (get_reading st2 avail).1 ∧
    (get_reading st1 avail).2.version_known = (get_reading st2 avail).2.version_known ∧
    (get_reading st1 avail).2.version = (get_reading st2 avail).2.version ∧
    (get_reading st1 avail).2.header = (get_reading st2 avail).2.header := by
  by_cases hk : st1.version_known = true
  · have hk2 : st2.version_known = true := by rw [← e1]; exact hk
    have hs : scanRaws false st1 avail = scanRaws false st2 avail :=
      scanRaws_agree avail false st1 st2 e2 e3 (fun h => by cases h)
    obtain ⟨f1, f2, f3⟩ := get_reading_fields st1 avail hk
    obtain ⟨g1, g2, g3⟩ := get_reading_fields st2 avail hk2
    refine ⟨?_, ?_, ?_, ?_⟩
    · rw [get_reading_spec st1 avail hk, get_reading_spec st2 avail hk2, hs, e2]
    · rw [f1, g1]
    · rw [f2, g2, e2]
    · rw [f3, g3, e3]
  · have hk2 : ¬ st2.version_known = true := by rw [← e1]; exact hk
    have hd1 : detect_version st1 avail = detect_loop false 0 0 st1 avail := by
      simp [detect_version, hk]
    have hd2 : detect_version st2 avail = detect_loop false 0 0 st2 avail := by
      simp [detect_version, hk2]
    rcases hl1 : detect_loop false 0 0 st1 avail with ⟨ok1, st1d, rest1⟩
    rcases hl2 : detect_loop false 0 0 st2 avail with ⟨ok2, st2d, rest2⟩
    have hag := detect_loop_agree avail false 0 0 st1 st2 e1 e2 e3
    rw [hl1, hl2] at hag
    have hok : ok1 = ok2 := hag.1
    have hrest : rest1 = rest2 := hag.2.1
    have ha1 : st1d.version_known = st2d.version_known := hag.2.2.1
    have ha2 : st1d.version = st2d.version := hag.2.2.2.1
    have ha3 : st1d.header = st2d.header := hag.2.2.2.2
    subst hok hrest
    rcases ok1 with _ | _
    · simp only [get_reading, hd1, hd2, hl1, hl2]
      exact ⟨trivial, ha1, ha2, ha3⟩
    · have hres := detect_loop_resolves avail false 0 0 st1
      rw [hl1] at hres
      have hkd1 : st1d.version_known = true := hres rfl
      have hkd2 : st2d.version_known = true := by rw [← ha1]; exact hkd1
      have hs : scanRaws false st1d rest1 = scanRaws false st2d rest1 :=
        scanRaws_agree rest1 false st1d st2d ha2 ha3 (fun h => by cases h)
      rcases hr1 : read_loop 0 0 false st1d rest1 with ⟨sum1, count1, st1r⟩
      rcases hr2 : read_loop 0 0 false st2d rest1 with ⟨sum2, count2, st2r⟩
      obtain ⟨p1, p2, p3, p4, p5⟩ := read_loop_spec rest1 0 0 false st1d
      obtain ⟨q1, q2, q3, q4, q5⟩ := read_loop_spec rest1 0 0 false st2d
      rw [hr1] at p1 p2 p3 p4 p5
      rw [hr2] at q1 q2 q3 q4 q5
      have hsum : sum1 = sum2 := by
        have a : sum1 = 0 + (scanRaws false st1d rest1).sum := p1
        have b : sum2 = 0 + (scanRaws false st2d rest1).sum := q1
        rw [a, b, hs]
      have hcnt : count1 = count2 := by
        have a : count1 = 0 + (scanRaws false st1d rest1).length := p2
        have b : count2 = 0 + (scanRaws false st2d rest1).length := q2
        rw [a, b, hs]
      have hverr : st1r.version = st2r.version := by
        have a : st1r.version = st1d.version := p3
        have b : st2r.version = st2d.version := q3
        rw [a, b, ha2]
      have hheadr : st1r.header = st2r.header := by
        have a : st1r.header = st1d.header := p4
        have b : st2r.header = st2d.header := q4
        rw [a, b, ha3]
      have hknr : st1r.version_known = st2r.version_known := by
        have a : st1r.version_known = st1d.version_known := p5
        have b : st2r.version_known = st2d.version_known := q5
        rw [a, b, ha1]
      simp only [get_reading, hd1, hd2, hl1, hl2, hr1, hr2]
      subst hsum hcnt
      by_cases h0 : count1 = 0
      · simp only [if_pos h0]
        exact ⟨trivial, hknr, hverr, hheadr⟩
      · simp only [if_neg h0]
        by_cases hv : st1r.version = 0
        · have hv2 : st2r.version = 0 := by rw [← hverr]; exact hv
          simp only [if_pos hv, if_pos hv2]
          exact ⟨trivial, hknr, hverr, hheadr⟩
        · have hv2 : ¬ st2r.version = 0 := by rw [← hverr]; exact hv
          simp only [if_neg hv, if_neg hv2]
          exact ⟨trivial, hknr, hverr, hheadr⟩

/-- Claim C1: with the dialect resolved to LegacyV0, the spec says a frame is
decoded as soon as the buffer reaches 3 bytes, so `[0x48, 10, 0]` alone should
yield reading 25 cm.  The code disagrees: the completion test
`linebuf_len < 6 || (_version == 0 && linebuf_len < 3)` has a redundant second
disjunct, so a version-0 frame is held until 6 bytes — contradicting the
code's own comment "(or 3 bytes for Version 0 firmware)".  On `[0x48, 10, 0]`
`get_reading` returns no reading; only after six bytes
`[0x48, 10, 0, 0x48, 10, 0]` does it decode (one frame, raw 10, reading
10 * 2.5 = 25). -/
theorem c1_v0_frame_not_decoded_at_three_bytes :
    (get_reading v0State [0x48, 10, 0]).1 = none ∧
    (get_reading v0State [0x48, 10, 0, 0x48, 10, 0]).1 = some 25 := by
  constructor <;> rfl

/-- Claim C2 counterexample: the byte sequence `[0x48, 7, 7, 0xFE, 3]`
contains the pair `[0xFE, 3]` with `3` having its high bit clear and
`3 ≠ 0x48`, yet `detect_version` on a fresh instance returns false and leaves
the dialect unresolved: the `0xFE` is consumed as the mismatching 4th byte of
the legacy-candidate check and is never re-examined as a header. -/
theorem c2_containment_cex :
    (detect_version initState [0x48, 7, 7, 0xFE, 3]).1 = false ∧
    (detect_version initState [0x48, 7, 7, 0xFE, 3]).2.1.version_known = false := by
  constructor <;> rfl

/-- Claim C2 (amended): for every byte sequence in which the pair `[0xFE, v]`
(with `v` high-bit clear, `v ≠ 0x48`, `v` a byte) is reached while the
detector is still searching for a header — in particular whenever it is
preceded only by bytes that are neither `0x48` nor `0xFE` — `detect_version`
resolves to the checksummed dialect, recording sub-version `v` and header
byte `0xFE`, and returns true leaving the following bytes unread. -/
theorem c2_resolves_checksummed_after_clean_prefix (st : ULState) (p : List Nat)
    (v : Nat) (rest : List Nat) (hk : st.version_known = false)
    (hp : ∀ b ∈ p, b ≠ ULANDING_HDR_V0 ∧ b ≠ ULANDING_HDR)
    (hv : v &&& 0x80 = 0) (h48 : v ≠ ULANDING_HDR_V0) (hvb : v < 256) :
    detect_version st (p ++ ULANDING_HDR :: v :: rest) =
      (true, { st with version := v, header := ULANDING_HDR, version_known := true },
        rest) := by
  have hnk : ¬ st.version_known = true := by simp [hk]
  rw [detect_version, if_neg hnk]
  revert hp
  induction p with
  | nil =>
    intro _
    have h48b : v ≠ 72 := h48
    simp [detect_loop, ULANDING_HDR, ULANDING_HDR_V0, hv, h48b]
  | cons b p2 ih =>
    intro hp
    have hb := hp b (by simp)
    have hb1 : b ≠ 72 := hb.1
    have hb2 : b ≠ 254 := hb.2
    simp only [List.cons_append]
    simp [detect_loop, ULANDING_HDR, ULANDING_HDR_V0, hb1, hb2, -List.cons_append]
    have := ih (fun x hx => hp x (List.mem_cons_of_mem b hx))
    simpa [ULANDING_HDR, ULANDING_HDR_V0] using this

/-- Claim C2 witness: concrete instance of the amended statement, prefix
`[1]`, pair `[0xFE, 5]`, trailing byte `[9]`. -/
theorem c2_witness :
    (initState.version_known = false ∧
      (∀ b ∈ [(1 : Nat)], b ≠ ULANDING_HDR_V0 ∧ b ≠ ULANDING_HDR) ∧
      (5 : Nat) &&& 0x80 = 0 ∧ (5 : Nat) ≠ ULANDING_HDR_V0 ∧ (5 : Nat) < 256) ∧
    detect_version initState ([1] ++ ULANDING_HDR :: 5 :: [9]) =
      (true, { initState with version := 5, header := ULANDING_HDR, version_known := true },
        [9]) :=
  ⟨⟨rfl, by decide, by decide, by decide, by decide⟩,
    c2_resolves_checksummed_after_clean_prefix initState [1] 5 [9] rfl (by decide)
      (by decide) (by decide) (by decide)⟩

/-- Claim C3 counterexample: with the 4th collected byte `0xFE` followed by
the valid sub-version byte `5`, the spec says the detector re-examines the
`0xFE` and resolves to the checksummed dialect within the same call; the code
instead consumes the mismatching 4th byte, so `detect_version` on
`[0x48, 0, 0, 0xFE, 5]` returns false with the dialect still unresolved. -/
theorem c3_fourth_byte_consumed_cex :
    (detect_version initState [0x48, 0, 0, 0xFE, 5]).1 = false ∧
    (detect_version initState [0x48, 0, 0, 0xFE, 5]).2.1.version_known = false := by
  constructor <;> rfl

/-- Claim C3 (amended): when a legacy header candidate is being confirmed and
the 4th collected byte differs from the candidate value, the candidate is
discarded and that 4th byte is consumed with it: scanning resumes at the
following byte, so detection on `0x48 :: a :: b :: c :: rest` with `c ≠ 0x48`
behaves exactly like detection on `rest` alone; in particular a `0xFE` in the
4th position followed by a valid sub-version byte does not resolve the
dialect in that call. -/
theorem c3_mismatched_fourth_byte_is_consumed (st : ULState) (a b c : Nat)
    (rest : List Nat) (hk : st.version_known = false) (hc : c ≠ ULANDING_HDR_V0) :
    detect_version st (ULANDING_HDR_V0 :: a :: b :: c :: rest) = detect_version st rest ∧
    (∀ v, v &&& 0x80 = 0 → v ≠ ULANDING_HDR_V0 →
      (detect_version st [ULANDING_HDR_V0, a, b, ULANDING_HDR, v]).1 = false) := by
  have hnk : ¬ st.version_known = true := by simp [hk]
  constructor
  · rw [detect_version, if_neg hnk, detect_version, if_neg hnk]
    simp [detect_loop, hc]
  · intro v hv h48
    have hv254 : v ≠ ULANDING_HDR := by
      intro h
      rw [h] at hv
      exact absurd hv (by decide)
    rw [detect_version, if_neg hnk]
    have h48b : v ≠ 72 := h48
    have hv254b : v ≠ 254 := hv254
    simp [detect_loop, ULANDING_HDR, ULANDING_HDR_V0, hv254b, h48b]

/-- Claim C3 witness: concrete instance of the amended statement with 4th
byte `0xFE`. -/
theorem c3_witness :
    (initState.version_known = false ∧ (0xFE : Nat) ≠ ULANDING_HDR_V0) ∧
    detect_version initState (ULANDING_HDR_V0 :: 9 :: 9 :: 0xFE :: [1, 2]) =
      detect_version initState [1, 2] :=
  ⟨⟨rfl, by decide⟩,
    (c3_mismatched_fourth_byte_is_consumed initState 9 9 0xFE [1, 2] rfl (by decide)).1⟩

/-- Claim C4: the resolved dialect is write-once.  Whenever `detect_version`
returns true the latch `_version_known` is set; once it is set,
`detect_version` returns true immediately, consuming no bytes and leaving the
state untouched; and neither `get_reading` nor `update` ever changes
`_version_known`, `_version` or `_header` again, regardless of the bytes
later presented. -/
theorem c4_version_latch_write_once (st0 st : ULState) (d : DeviceState)
    (a b c : List Nat) (now : Nat)
    (hk : st.version_known = true) (hd : d.rf.version_known = true) :
    ((detect_version st0 a).1 = true → (detect_version st0 a).2.1.version_known = true) ∧
    detect_version st b = (true, st, b) ∧
    ((get_reading st c).2.version_known = true ∧
      (get_reading st c).2.version = st.version ∧
      (get_reading st c).2.header = st.header) ∧
    ((update d c now).rf.version_known = true ∧
      (update d c now).rf.version = d.rf.version ∧
      (update d c now).rf.header = d.rf.header) := by
  refine ⟨?_, ?_, get_reading_fields st c hk, ?_⟩
  · intro h
    by_cases hk0 : st0.version_known = true
    · simp [detect_version, hk0]
    · rw [detect_version, if_neg hk0] at h ⊢
      exact detect_loop_resolves a false 0 0 st0 h
  · simp [detect_version, hk]
  · obtain ⟨f1, f2, f3⟩ := get_reading_fields d.rf c hd
    rcases hg : get_reading d.rf c with ⟨r, stg⟩
    rw [hg] at f1 f2 f3
    have g1 : stg.version_known = true := f1
    have g2 : stg.version = d.rf.version := f2
    have g3 : stg.header = d.rf.header := f3
    rcases r with _ | r
    · simp only [update, hg]
      by_cases ht : 200 < now - d.last_reading_ms
      · simp only [if_pos ht]
        exact ⟨g1, g2, g3⟩
      · simp only [if_neg ht]
        exact ⟨g1, g2, g3⟩
    · simp only [update, hg]
      exact ⟨g1, g2, g3⟩

/-- A device wrapper around `v1State`, used to instantiate the write-once
theorem. -/
def dev1State : DeviceState :=
  { rf := v1State, distance_cm := 0, last_reading_ms := 0, no_data := false }

/-- Claim C4 witness: concrete instance of the write-once statement. -/
theorem c4_witness :
    (v1State.version_known = true ∧ dev1State.rf.version_known = true) ∧
    detect_version v1State [1, 2] = (true, v1State, [1, 2]) :=
  ⟨⟨rfl, rfl⟩,
    (c4_version_latch_write_once initState v1State dev1State [] [1, 2] [] 0 rfl rfl).2.1⟩

/-- Claim C5: with the dialect resolved to the checksummed format (in the
code every decode decision is keyed on `_version == 0`, so resolved
ChecksummedV1 behaviour means `_version ≠ 0`; the recorded sub-version 0 case
is claim C8), a completed 6-byte frame is accepted exactly when
`(byte1 + byte2 + byte3 + byte4) mod 256` equals `byte5`, and an accepted
frame yields `byte3 * 256 + byte2`. -/
theorem c5_checksum_acceptance_iff (st : ULState) (b1 b2 b3 b4 b5 : Nat)
    (hk : st.version_known = true) (hv : st.version ≠ 0) :
    (get_reading st [st.header, b1, b2, b3, b4, b5]).1 =
      (if (b1 + b2 + b3 + b4) % 256 = b5 then some (b3 * 256 + b2) else none) := by
  by_cases hcs : (b1 + b2 + b3 + b4) % 256 = b5
  · simp [get_reading, detect_version, hk, read_loop, proc_byte, bufWrite, linebufSize,
      hv, hcs]
  · simp [get_reading, detect_version, hk, read_loop, proc_byte, bufWrite, linebufSize,
      hv, hcs]

/-- Claim C5 witness: the frame `[0xFE, 1, 2, 3, 4, 10]` on a resolved
sub-version-1 instance: checksum `1+2+3+4 = 10` matches, raw `3*256+2 = 770`,
and `get_reading` returns 770 cm. -/
theorem c5_witness :
    (v1State.version_known = true ∧ v1State.version ≠ 0) ∧
    (get_reading v1State [0xFE, 1, 2, 3, 4, 10]).1 = some 770 := by
  refine ⟨⟨rfl, by decide⟩, ?_⟩
  have h := c5_checksum_acceptance_iff v1State 1 2 3 4 10 rfl (by decide)
  exact h.trans (by decide)

/-- Claim C6: with the checksummed dialect active (`_version ≠ 0`), a
completed 6-byte frame whose checksum byte does not match leaves the running
sum and the valid-frame count exactly as if the frame had never appeared, and
the remaining bytes of the call are decoded normally; in particular the lone
frame `[0xFE, 1, 2, 3, 4, 11]` yields count 0 and `get_reading` returns no
reading. -/
theorem c6_bad_checksum_frame_contributes_nothing (st : ULState) (sum count : Nat)
    (b1 b2 b3 b4 b5 : Nat) (rest : List Nat)
    (hk : st.version_known = true) (hv : st.version ≠ 0)
    (hcs : (b1 + b2 + b3 + b4) % 256 ≠ b5) :
    (read_loop sum count false st (st.header :: b1 :: b2 :: b3 :: b4 :: b5 :: rest)).1
      = (read_loop sum count false st rest).1 ∧
    (read_loop sum count false st (st.header :: b1 :: b2 :: b3 :: b4 :: b5 :: rest)).2.1
      = (read_loop sum count false st rest).2.1 ∧
    (get_reading st [st.header, 1, 2, 3, 4, 11]).1 = none := by
  have hL : scanRaws false st (st.header :: b1 :: b2 :: b3 :: b4 :: b5 :: rest)
      = scanRaws false st rest := by
    conv_lhs => simp [scanRaws, proc_byte, bufWrite, linebufSize, hv, hcs]
    exact scanRaws_agree rest false _ st rfl rfl (fun h => by cases h)
  obtain ⟨p1, p2, _, _, _⟩ :=
    read_loop_spec (st.header :: b1 :: b2 :: b3 :: b4 :: b5 :: rest) sum count false st
  obtain ⟨q1, q2, _, _, _⟩ := read_loop_spec rest sum count false st
  refine ⟨?_, ?_, ?_⟩
  · rw [p1, q1, hL]
  · rw [p2, q2, hL]
  · simp [get_reading, detect_version, hk, read_loop, proc_byte, bufWrite, linebufSize, hv]

/-- Claim C6 witness: concrete instance, bad frame `[0xFE, 1, 2, 3, 4, 11]`
followed by nothing contributes nothing, and alone yields no reading. -/
theorem c6_witness :
    (v1State.version_known = true ∧ v1State.version ≠ 0 ∧
      (1 + 2 + 3 + 4) % 256 ≠ 11) ∧
    (read_loop 0 0 false v1State [0xFE, 1, 2, 3, 4, 11]).1 =
      (read_loop 0 0 false v1State []).1 ∧
    (get_reading v1State [0xFE, 1, 2, 3, 4, 11]).1 = none := by
  have h := c6_bad_checksum_frame_contributes_nothing v1State 0 0 1 2 3 4 11 [] rfl
    (by decide) (by decide)
  exact ⟨⟨rfl, by decide, by decide⟩, h.1, h.2.2⟩

/-- Claim C7 counterexample: with LegacyV0 resolved, `get_reading` on
`[0x48, 20, 0, 0x48, 20, 0]` decodes one frame of raw value 20 (so the
arithmetic mean of the raw values of the valid frames is 20) but returns
50 cm — the 2.5 scaling the claim omits — so the reading is not the
arithmetic mean of the raw values. -/
theorem c7_reading_is_not_raw_mean_cex :
    (get_reading v0State [0x48, 20, 0, 0x48, 20, 0]).1 = some 50 ∧
    scanRaws false v0State [0x48, 20, 0, 0x48, 20, 0] = [20] ∧
    ¬ (get_reading v0State [0x48, 20, 0, 0x48, 20, 0]).1 =
        some ((scanRaws false v0State [0x48, 20, 0, 0x48, 20, 0]).sum /
          (scanRaws false v0State [0x48, 20, 0, 0x48, 20, 0]).length) := by
  refine ⟨by decide, by decide, by decide⟩

/-- Claim C7 (amended): when at least one valid frame is decoded in a call,
`get_reading` returns the truncated arithmetic mean of the raw values of all
valid frames decoded in that call, additionally scaled by 2.5 (with
truncation) when the resolved version is 0; for a non-zero version the
reading is exactly the truncated mean — in particular two valid checksummed
frames with raws 100 and 200 give 150 cm. -/
theorem c7_reading_is_mean_with_v0_scaling (st : ULState) (avail : List Nat)
    (hk : st.version_known = true) (hne : scanRaws false st avail ≠ []) :
    (get_reading st avail).1 =
      some (if st.version = 0 then
          (scanRaws false st avail).sum / (scanRaws false st avail).length * 5 / 2
        else (scanRaws false st avail).sum / (scanRaws false st avail).length) := by
  rw [get_reading_spec st avail hk]
  have hlen : ¬ (scanRaws false st avail).length = 0 := by
    simpa [List.length_eq_zero] using hne
  rw [if_neg hlen]
  by_cases hv : st.version = 0
  · rw [if_pos hv, if_pos hv]
  · rw [if_neg hv, if_neg hv]

/-- The two-valid-frame stream of the averaging example: raws 100 and 200
with correct checksums. -/
def twoFrames : List Nat := [0xFE, 1, 100, 0, 0, 101, 0xFE, 1, 200, 0, 0, 201]

/-- Claim C7 witness: the two frames with raws 100 and 200 average to
150 cm. -/
theorem c7_witness :
    (v1State.version_known = true ∧ scanRaws false v1State twoFrames ≠ []) ∧
    (get_reading v1State twoFrames).1 = some 150 := by
  refine ⟨⟨rfl, by decide⟩, ?_⟩
  have h := c7_reading_is_mean_with_v0_scaling v1State twoFrames rfl (by decide)
  exact h.trans (by decide)

/-- Claim C8: resolving from the byte pair `[0xFE, 0x00]` stores version 0
with header byte `0xFE`, and every completed frame of a subsequent
`get_reading` call on such an instance is then decoded with the legacy
formula `(linebuf[2] & 0x7F) * 128 + (linebuf[1] & 0x7F)` and the 2.5
scaling, because the parsing branch and the scaling test only whether the
stored version equals 0 — a checksummed-dialect device reporting sub-version
0 is decoded under LegacyV0 rules. -/
theorem c8_subversion_zero_decoded_as_legacy (st st2 : ULState) (rest : List Nat)
    (b1 b2 b3 b4 b5 : Nat) (hk : st.version_known = false)
    (h2 : st2.version_known = true) (hv2 : st2.version = 0)
    (hh2 : st2.header = ULANDING_HDR) :
    detect_version st (ULANDING_HDR :: 0 :: rest) =
      (true, { st with version := 0, header := ULANDING_HDR, version_known := true },
        rest) ∧
    (get_reading st2 [ULANDING_HDR, b1, b2, b3, b4, b5]).1 =
      some (((b2 &&& 0x7F) * 128 + (b1 &&& 0x7F)) * 5 / 2) := by
  have hnk : ¬ st.version_known = true := by simp [hk]
  constructor
  · rw [detect_version, if_neg hnk]
    simp [detect_loop, ULANDING_HDR, ULANDING_HDR_V0]
  · simp [get_reading, detect_version, h2, read_loop, proc_byte, bufWrite, linebufSize,
      hv2, hh2]

/-- Claim C8 witness: `[0xFE, 0]` resolves to sub-version 0, and the frame
`[0xFE, 10, 0, 1, 2, 3]` on such an instance is decoded with the legacy
formula and scaling: raw 10, reading 25 cm. -/
theorem c8_witness :
    (initState.version_known = false ∧ chk0State.version_known = true ∧
      chk0State.version = 0 ∧ chk0State.header = ULANDING_HDR) ∧
    detect_version initState (ULANDING_HDR :: 0 :: [7]) =
      (true, { initState with version := 0, header := ULANDING_HDR, version_known := true },
        [7]) ∧
    (get_reading chk0State [ULANDING_HDR, 10, 0, 1, 2, 3]).1 = some 25 := by
  have h := c8_subversion_zero_decoded_as_legacy initState chk0State [7] 10 0 1 2 3
    rfl rfl rfl rfl
  exact ⟨⟨rfl, rfl, rfl, rfl⟩, h.1, h.2.trans (by decide)⟩

/-- Claim C9: a partial frame left in the frame buffer at the end of one
`get_reading` call never contributes to any reading of a later call.  Over an
arbitrary sequence of polling calls, the readings depend only on the dialect
latch (`_version_known`, `_version`, `_header`) and the bytes, never on the
leftover `linebuf` contents or `linebuf_len`: the `hdr_found` flag is a local
initialised to false each call and `linebuf_len` is reset to 0 on every
header byte, so every call discards bytes until a header-byte-valued byte is
seen. -/
theorem c9_partial_frame_never_crosses_calls (calls : List (List Nat)) :
    ∀ st1 st2 : ULState, st1.version_known = st2.version_known →
      st1.version = st2.version → st1.header = st2.header →
      (runCalls st1 calls).1 = (runCalls st2 calls).1 := by
  induction calls with
  | nil => intro st1 st2 _ _ _; rfl
  | cons a more ih =>
    intro st1 st2 e1 e2 e3
    rcases hg1 : get_reading st1 a with ⟨r1, s1⟩
    rcases hg2 : get_reading st2 a with ⟨r2, s2⟩
    have hag := get_reading_agree st1 st2 a e1 e2 e3
    rw [hg1, hg2] at hag
    have hr : r1 = r2 := hag.1
    have k1 : s1.version_known = s2.version_known := hag.2.1
    have k2 : s1.version = s2.version := hag.2.2.1
    have k3 : s1.header = s2.header := hag.2.2.2
    rcases hrc1 : runCalls s1 more with ⟨rs1, sf1⟩
    rcases hrc2 : runCalls s2 more with ⟨rs2, sf2⟩
    have hrec := ih s1 s2 k1 k2 k3
    rw [hrc1, hrc2] at hrec
    have hrs : rs1 = rs2 := hrec
    simp only [runCalls, hg1, hg2, hrc1, hrc2]
    rw [hr, hrs]

/-- An instance with the same dialect latch as `v1State` but a dirty frame
buffer: a stale partial frame of 4 bytes left from an earlier call. -/
def dirtyState : ULState :=
  { version_known := true, version := 1, header := ULANDING_HDR,
    linebuf := fun _ => 0xFE, linebuf_len := 4 }

/-- Claim C9 witness: the dirty-buffer instance and the clean instance
produce identical reading sequences on a concrete pair of polling calls. -/
theorem c9_witness :
    (dirtyState.version_known = v1State.version_known ∧
      dirtyState.version = v1State.version ∧ dirtyState.header = v1State.header) ∧
    (runCalls dirtyState [[0xFE, 1, 2, 3, 4, 10], [5, 6]]).1 =
      (runCalls v1State [[0xFE, 1, 2, 3, 4, 10], [5, 6]]).1 :=
  ⟨⟨rfl, rfl, rfl⟩,
    c9_partial_frame_never_crosses_calls [[0xFE, 1, 2, 3, 4, 10], [5, 6]]
      dirtyState v1State rfl rfl rfl⟩

/-- Invariant behind claim C10: starting from any loop state in which a
frame in progress implies a fill index below capacity, every buffer write of
the drain loop uses an index below 6: the index is reset to 0 whenever a
header byte starts a frame, and reset again as soon as a completed frame is
processed. -/
lemma read_loop_writes_bound (bytes : List Nat) : ∀ hf (st : ULState),
    (hf = true → st.linebuf_len < 6) →
    ∀ i ∈ read_loop_writes hf st bytes, i < 6 := by
  induction bytes with
  | nil =>
    intro hf st _ i hi
    simp [read_loop_writes] at hi
  | cons c rest ih =>
    intro hf st hinv i hi
    by_cases h1 : c = st.header ∧ hf = false
    · rcases hp : proc_byte { st with linebuf_len := 0 } c with ⟨r, hf2, st2⟩
      have hb := proc_byte_hf_len { st with linebuf_len := 0 } c
      rw [hp] at hb
      have hb2 : hf2 = true → st2.linebuf_len < 6 := hb
      simp only [read_loop_writes, if_pos h1, hp] at hi
      rcases List.mem_cons.mp hi with h | h
      · omega
      · exact ih hf2 st2 hb2 i h
    · by_cases h2 : hf = true
      · rcases hp : proc_byte st c with ⟨r, hf2, st2⟩
        have hb := proc_byte_hf_len st c
        rw [hp] at hb
        have hb2 : hf2 = true → st2.linebuf_len < 6 := hb
        simp only [read_loop_writes, if_neg h1, if_pos h2, hp] at hi
        rcases List.mem_cons.mp hi with h | h
        · rw [h]; exact hinv h2
        · exact ih hf2 st2 hb2 i h
      · simp only [read_loop_writes, if_neg h1, if_neg h2] at hi
        exact ih hf st hinv i hi

/-- Claim C10: for every input byte sequence and every starting instance
state, each buffer write `linebuf[linebuf_len++] = c` performed by a
`get_reading` call (which always enters its drain loop with the local
`hdr_found` false) uses an index strictly below the buffer capacity 6: the
frame buffer is never written out of bounds. -/
theorem c10_linebuf_writes_in_bounds (st : ULState) (bytes : List Nat) (i : Nat)
    (h : i ∈ read_loop_writes false st bytes) : i < linebufSize := by
  have hb := read_loop_writes_bound bytes false st (fun hcon => by cases hcon) i h
  simpa [linebufSize] using hb

/-- Claim C10 witness: on the concrete frame `[0xFE, 5]` the loop writes at
index 0, which the theorem bounds by the capacity. -/
theorem c10_witness :
    0 ∈ read_loop_writes false v1State [0xFE, 5] ∧ 0 < linebufSize :=
  ⟨by decide, c10_linebuf_writes_in_bounds v1State [0xFE, 5] 0 (by decide)⟩

end ULanding
